import Mathlib

/-!
Verification development for the ISO-family box-container demuxer
(`gst/isomp4_1_8`, element `qtdemux_1_8`).

The repository snapshot ships the demuxer's public header `qtdemux.h`
(instance state: fixed `streams[GST_QTDEMUX_MAX_STREAMS]` array,
`flowcombiner`, `fragmented_seek_pending`, push-mode `adapter`, ...) and the
plugin registration, but not `qtdemux.c` itself.  The components below
(Box Reader, Sample Table Builder, Fragment Extender, Demux State Machine,
Seek/Index Planner, Track/Output Manager) are therefore modelled from the
specification's component contracts, grounded in the header's declarations
where the header speaks.
-/

namespace QtDemux

/-- Modelled from the spec (Data Model, Sample Index entry): one entry of a
per-track sample index, as built by the Sample Table Builder of the missing
`qtdemux.c`: byte offset, byte size, decode time (track time scale),
presentation-time delta (may be negative), duration, sync flag. -/
structure QtSample where
  byteOffset : Nat
  byteSize : Nat
  decodeTime : Nat
  ptsDelta : Int
  duration : Nat
  sync : Bool
  deriving Repr, DecidableEq, Inhabited

/-- Presentation time of a sample: decode time plus presentation-time delta. -/
def ptime (s : QtSample) : Int :=
  (s.decodeTime : Int) + s.ptsDelta

/-- Modelled from the spec (4.2): the sample-size table of a static sample
table subtree, either uniform (one size for a declared sample count) or
per-sample. -/
inductive SizeTable where
  | uniform (size count : Nat)
  | perSample (sizes : List Nat)
  deriving Repr, DecidableEq

/-- Sample count implied by the sample-size table. -/
def sizeCount : SizeTable → Nat
  | .uniform _ n => n
  | .perSample l => l.length

/-- Expand the sample-size table into one byte size per sample. -/
def expandSizes : SizeTable → List Nat
  | .uniform s n => List.replicate n s
  | .perSample l => l

/-- Modelled from the spec (4.2): the complete static sample table subtree
for one track, as handed to the Sample Table Builder of the missing
`qtdemux.c`: sample sizes, run-length decode-time deltas (count, delta
pairs), optional run-length composition-time offsets, sample-to-chunk
groups (first chunk, samples per chunk), chunk byte offsets, and an
optional sync-sample list (1-based sample numbers). -/
structure SampleTables where
  sizes : SizeTable
  timeToSample : List (Nat × Nat)
  compOffsets : Option (List (Nat × Int))
  sampleToChunk : List (Nat × Nat)
  chunkOffsets : List Nat
  syncSamples : Option (List Nat)
  deriving Repr, DecidableEq

/-- Total sample count implied by the run-length decode-time table. -/
def sttsTotalCount (stts : List (Nat × Nat)) : Nat :=
  (stts.map Prod.fst).sum

/-- One run of the decode-time table: `n` samples starting at decode time
`t`, each lasting `d` ticks. -/
def expandRun (n d t : Nat) : List Nat :=
  (List.range n).map (fun i => t + i * d)

/-- Expand the run-length decode-time table into a per-sample decode-time
sequence starting at time `t`. -/
def expandDeltas : List (Nat × Nat) → Nat → List Nat
  | [], _ => []
  | (n, d) :: rest, t => expandRun n d t ++ expandDeltas rest (t + n * d)

/-- Per-sample durations from the run-length decode-time table. -/
def expandDurations : List (Nat × Nat) → List Nat
  | [] => []
  | (n, d) :: rest => List.replicate n d ++ expandDurations rest

/-- Expand the run-length composition-offset table; an absent table means a
zero presentation-time delta for every sample. -/
def expandCompOffsets : Option (List (Nat × Int)) → List Int
  | none => []
  | some l => l.flatMap (fun p => List.replicate p.1 p.2)

/-- Samples per chunk for chunk number `j` (1-based): the value of the last
sample-to-chunk group whose first chunk is at or before `j`. -/
def samplesPerChunk (stsc : List (Nat × Nat)) (j : Nat) : Nat :=
  (stsc.filter (fun p => p.1 ≤ j)).foldl (fun _ p => p.2) 0

/-- Byte offsets of consecutive samples within one chunk: laid out
back-to-back from the chunk's base offset, each advanced by the previous
sample's size. -/
def layoutChunk (base : Nat) (szs : List Nat) : List Nat :=
  match szs with
  | [] => []
  | s :: rest => base :: layoutChunk (base + s) rest

/-- Expand chunk offsets and per-chunk sample counts into per-sample byte
offsets, consuming the per-sample size list chunk by chunk. -/
def expandOffsetsGo : List (Nat × Nat) → List Nat → List Nat
  | [], _ => []
  | (base, cnt) :: rest, szs =>
      layoutChunk base (szs.take cnt) ++ expandOffsetsGo rest (szs.drop cnt)

/-- Per-sample byte offsets from the sample-to-chunk groups and the chunk
offsets, applied to the expanded per-sample sizes. -/
def expandOffsets (stsc : List (Nat × Nat)) (stco : List Nat)
    (szs : List Nat) : List Nat :=
  expandOffsetsGo
    ((List.range stco.length).map
      (fun j => (stco.getD j 0, samplesPerChunk stsc (j + 1)))) szs

/-- Sample `k` (0-based) is sync: listed in the sync-sample table, or every
sample when no such table is present. -/
def isSync (stss : Option (List Nat)) (k : Nat) : Bool :=
  match stss with
  | none => true
  | some l => (k + 1) ∈ l

/-- Fill sample number `k` (0-based) of the index being built from the
expanded per-sample tables. -/
def buildSamples (t : SampleTables) : List QtSample :=
  (List.range (sizeCount t.sizes)).map (fun k =>
    { byteOffset :=
        (expandOffsets t.sampleToChunk t.chunkOffsets (expandSizes t.sizes)).getD k 0
      byteSize := (expandSizes t.sizes).getD k 0
      decodeTime := (expandDeltas t.timeToSample 0).getD k 0
      ptsDelta := (expandCompOffsets t.compOffsets).getD k 0
      duration := (expandDurations t.timeToSample).getD k 0
      sync := isSync t.syncSamples k })

/-- Modelled from the spec (4.2, Sample Table Builder of the missing
`qtdemux.c`): produce the fully-resolved per-track sample index from a
static sample table subtree.  The sample-size table and the decode-time
table must describe the same sample count; a disagreement is a fatal error
for that track (`none`).  A zero-sample track yields an empty index. -/
def buildSampleIndex (t : SampleTables) : Option (List QtSample) :=
  if sizeCount t.sizes = sttsTotalCount t.timeToSample then
    some (buildSamples t)
  else none

/-- Modelled from the spec (7, recoverable-skip): building the session's
tracks skips a track whose tables are inconsistent and continues with the
remaining tracks. -/
def demuxBuildTracks (ts : List SampleTables) : List (List QtSample) :=
  ts.filterMap buildSampleIndex

/-- Concrete two-sample static table used to witness the builder claims. -/
def exTable : SampleTables :=
  { sizes := .perSample [100, 200]
    timeToSample := [(2, 10)]
    compOffsets := none
    sampleToChunk := [(1, 2)]
    chunkOffsets := [64]
    syncSamples := none }

/-- Inconsistent table (three sizes, two decode-time entries) used to
witness the contained-error claim. -/
def badTable : SampleTables :=
  { sizes := .perSample [10, 10, 10]
    timeToSample := [(2, 5)]
    compOffsets := none
    sampleToChunk := [(1, 3)]
    chunkOffsets := [0]
    syncSamples := none }

/-- Delivery mode of the byte source: pull (random access) or push
(streaming), per the `pullbased` flag of `GstQTDemux` (qtdemux.h). -/
inductive DeliveryMode where
  | pull
  | push
  deriving Repr, DecidableEq

/-- Result of one Box Reader step: a parsed header (type code, declared box
size, header length), a need-more-data condition, or a fatal parse error. -/
inductive BoxReadResult where
  | header (ty size hdrLen : Nat)
  | needMoreData
  | fatalError
  deriving Repr, DecidableEq

/-- Big-endian 32-bit value from four bytes. -/
def be32 (a b c d : Nat) : Nat :=
  ((a * 256 + b) * 256 + c) * 256 + d

/-- Modelled from the spec (4.1 Box Reader of the missing `qtdemux.c` /
`qtatomparser.h`): read the next box header from a byte span: 4-byte
big-endian size then 4-byte type; a size field of 1 is the large-size
marker and a 64-bit size follows the type; a size field of 0 means the box
extends to the end of the span.  `none` when fewer bytes than the
(possibly extended) header are present.  Yields (type, declared size,
header length). -/
def parseBoxHeader (bytes : List Nat) : Option (Nat × Nat × Nat) :=
  if 8 ≤ bytes.length then
    if be32 (bytes.getD 0 0) (bytes.getD 1 0) (bytes.getD 2 0) (bytes.getD 3 0) = 1 then
      if 16 ≤ bytes.length then
        some (be32 (bytes.getD 4 0) (bytes.getD 5 0) (bytes.getD 6 0) (bytes.getD 7 0),
          be32 (bytes.getD 8 0) (bytes.getD 9 0) (bytes.getD 10 0) (bytes.getD 11 0)
              * 4294967296 +
            be32 (bytes.getD 12 0) (bytes.getD 13 0) (bytes.getD 14 0) (bytes.getD 15 0),
          16)
      else none
    else if be32 (bytes.getD 0 0) (bytes.getD 1 0) (bytes.getD 2 0) (bytes.getD 3 0) = 0 then
      some (be32 (bytes.getD 4 0) (bytes.getD 5 0) (bytes.getD 6 0) (bytes.getD 7 0),
        bytes.length, 8)
    else
      some (be32 (bytes.getD 4 0) (bytes.getD 5 0) (bytes.getD 6 0) (bytes.getD 7 0),
        be32 (bytes.getD 0 0) (bytes.getD 1 0) (bytes.getD 2 0) (bytes.getD 3 0), 8)
  else none

/-- Modelled from the spec (4.1 truncation policy): the hard sanity ceiling
on a declared box size that push mode is willing to buffer before declaring
the size field corrupt.  The spec fixes the ceiling's existence, not its
numeric value; the theorems are stated relative to this constant. -/
def boxSanityCeiling : Nat := 2 ^ 30

/-- Modelled from the spec (4.1 truncation policy, Box Reader of the
missing `qtdemux.c`): read the next box against the available bytes.  A box
whose declared size exceeds the available bytes is a fatal parse error in
pull mode; in push mode it is a need-more-data condition unless the
declared size exceeds the sanity ceiling, in which case it is fatal.  An
incomplete header is likewise fatal at end-of-file in pull mode and
need-more-data in push mode. -/
def readBox (mode : DeliveryMode) (bytes : List Nat) : BoxReadResult :=
  match parseBoxHeader bytes with
  | none =>
      match mode with
      | .pull => .fatalError
      | .push => .needMoreData
  | some (ty, size, hdrLen) =>
      if size ≤ bytes.length then .header ty size hdrLen
      else
        match mode with
        | .pull => .fatalError
        | .push => if size ≤ boxSanityCeiling then .needMoreData else .fatalError

/-- The empty push-mode accumulation buffer (the `adapter` field of
`GstQTDemux`, qtdemux.h line 126). -/
def adapterEmpty : List Nat := []

/-- Pushing one arriving chunk into the accumulation buffer appends its
bytes. -/
def adapterPush (acc chunk : List Nat) : List Nat := acc ++ chunk

/-- Deliver a sequence of chunks into a fresh accumulation buffer. -/
def pushChunks (chunks : List (List Nat)) : List Nat :=
  chunks.foldl adapterPush adapterEmpty

/-- A complete 16-byte box (ftyp, size 16) used to witness the chunking
claims. -/
def exBoxBytes : List Nat := [0, 0, 0, 16, 102, 116, 121, 112, 1, 2, 3, 4, 5, 6, 7, 8]

/-- First delivery chunk: ends 3 bytes into the 8-byte header. -/
def exChunk1 : List Nat := [0, 0, 0]

/-- Second delivery chunk: the remainder of `exBoxBytes`. -/
def exChunk2 : List Nat := [16, 102, 116, 121, 112, 1, 2, 3, 4, 5, 6, 7, 8]

/-- An 8-byte span declaring a 100-byte box: truncated. -/
def exTruncBytes : List Nat := [0, 0, 0, 100, 102, 116, 121, 112]

/-- An 8-byte span declaring a box of 4294967295 bytes: beyond the sanity
ceiling. -/
def exHugeBytes : List Nat := [255, 255, 255, 255, 102, 116, 121, 112]

/-- Modelled from the spec (4.5 Seek/Index Planner of the missing
`qtdemux.c`): the index of the last sync sample whose presentation time is
at or before the target, when one exists.  Tracks without a sync-sample
table have every sample marked sync by the builder, so the same rule picks
the sample at or before the target directly. -/
def lastSyncIdx : List QtSample → Int → Option Nat
  | [], _ => none
  | s :: rest, tgt =>
      match lastSyncIdx rest tgt with
      | some j => some (j + 1)
      | none => if s.sync = true ∧ ptime s ≤ tgt then some 0 else none

/-- Modelled from the spec (4.5): the index position the track resumes from
after a seek: the last sync sample at or before the target, falling back to
the first sample. -/
def seekFindSample (samples : List QtSample) (tgt : Int) : Nat :=
  (lastSyncIdx samples tgt).getD 0

/-- Forward emission from a resolved index: reading from cursor position
`i` onward in decode order. -/
def emitFrom (samples : List QtSample) (i : Nat) : List QtSample :=
  samples.drop i

/-- Scenario B track: nine samples of one tick each whose sync-sample table
lists samples 0, 4 and 8 (1-based entries 1, 5, 9). -/
def scenBTable : SampleTables :=
  { sizes := .uniform 100 9
    timeToSample := [(9, 1)]
    compOffsets := none
    sampleToChunk := [(1, 9)]
    chunkOffsets := [0]
    syncSamples := some [1, 5, 9] }

/-- The resolved Scenario B sample index. -/
def scenBSamples : List QtSample :=
  (buildSampleIndex scenBTable).getD []

/-- Outcome of a seek request: resume position in the index, deferral until
enough fragments are known, or an error (which the planner never
produces). -/
inductive SeekResult where
  | positioned (idx : Nat)
  | deferred
  | error
  deriving Repr, DecidableEq

/-- Modelled from the spec (4.5 failure policy) and the
`fragmented`/`fragmented_seek_pending` fields of `GstQTDemux` (qtdemux.h
lines 93-94): the seek-relevant slice of the demuxer instance. -/
structure SeekState where
  fragmented : Bool
  fragmented_seek_pending : Bool
  samples : List QtSample
  deriving Repr, DecidableEq

/-- Modelled from the spec (4.5): handle a seek request.  On a fragmented
container whose index is still empty the seek is recorded as pending
(deferred), not failed; otherwise the planner positions the track, clamping
targets beyond the known samples to the last known sync sample. -/
def handleSeek (d : SeekState) (tgt : Int) : SeekState × SeekResult :=
  if d.fragmented = true ∧ d.samples = [] then
    ({ d with fragmented_seek_pending := true }, .deferred)
  else (d, .positioned (seekFindSample d.samples tgt))

/-- A non-fragmented instance holding the Scenario B track. -/
def exSeekState : SeekState :=
  { fragmented := false, fragmented_seek_pending := false, samples := scenBSamples }

/-- A fragmented instance before any sample index has been resolved. -/
def exFragSeekState : SeekState :=
  { fragmented := true, fragmented_seek_pending := false, samples := [] }

/-- Outcome of offering one fragment to a track: appended, dropped as a
recoverable per-fragment error, or fatal. -/
inductive FragOutcome where
  | appended
  | droppedRecoverable
  | fatal
  deriving Repr, DecidableEq

/-- Modelled from the spec (4.3 Fragment Extender of the missing
`qtdemux.c`): one fragment's resolved run for a single track: the optional
explicit base decode time from the fragment header (absent means implied
continuation from the track's cursor), per-sample durations, sizes and sync
flags after run defaults are applied, and the run's base data offset. -/
structure TrackFragment where
  baseDecodeTime : Option Nat
  durations : List Nat
  sizes : List Nat
  syncFlags : List Bool
  baseOffset : Nat
  deriving Repr, DecidableEq

/-- The per-track state the Fragment Extender maintains: the growing sample
index and the accumulated decode-time cursor. -/
structure TrackFragState where
  index : List QtSample
  cursor : Nat
  deriving Repr, DecidableEq

/-- Samples of one run laid out back-to-back from decode time `t` and byte
offset `off`; a missing sync flag means sync. -/
def fragRunSamples : Nat → Nat → List Nat → List Nat → List Bool → List QtSample
  | _, _, [], _, _ => []
  | t, off, d :: ds, szs, syncs =>
      { byteOffset := off
        byteSize := szs.headD 0
        decodeTime := t
        ptsDelta := 0
        duration := d
        sync := syncs.headD true } ::
        fragRunSamples (t + d) (off + szs.headD 0) ds szs.tail syncs.tail

/-- Modelled from the spec (4.3, Sample Index monotonic-append invariant):
append one fragment's run to the track.  The base decode time is the
explicit header value or the track's accumulated cursor; a fragment whose
run would start before the cursor violates the monotonic-append invariant
and is dropped as a recoverable error with the track state unchanged. -/
def appendFragment (s : TrackFragState) (f : TrackFragment) :
    TrackFragState × FragOutcome :=
  if f.baseDecodeTime.getD s.cursor < s.cursor then (s, .droppedRecoverable)
  else
    ({ index := s.index ++
          fragRunSamples (f.baseDecodeTime.getD s.cursor) f.baseOffset
            f.durations f.sizes f.syncFlags
       cursor := f.baseDecodeTime.getD s.cursor + f.durations.sum },
     .appended)

/-- Process a sequence of fragments in arrival order. -/
def processFragments (s : TrackFragState) (fs : List TrackFragment) :
    TrackFragState :=
  fs.foldl (fun st f => (appendFragment st f).1) s

/-- A well-formed two-sample fragment continuing from the track cursor. -/
def exFrag1 : TrackFragment :=
  { baseDecodeTime := none, durations := [5, 5], sizes := [50, 60],
    syncFlags := [true, false], baseOffset := 0 }

/-- A fragment whose explicit base decode time (3) lies before the cursor
it will meet. -/
def exFragBad : TrackFragment :=
  { baseDecodeTime := some 3, durations := [5], sizes := [50],
    syncFlags := [true], baseOffset := 0 }

/-- A fresh track for the Fragment Extender. -/
def exFragState : TrackFragState := { index := [], cursor := 0 }

/-- Downstream per-output result codes, as combined by the
`GstFlowCombiner` held in `GstQTDemux.flowcombiner` (qtdemux.h line 80). -/
inductive GstFlowReturn where
  | ok
  | notLinked
  | flushing
  | eos
  | notNegotiated
  | error
  deriving Repr, DecidableEq

/-- Fatal downstream results: those that must abort the whole session. -/
def flowIsFatal : GstFlowReturn → Bool
  | .error => true
  | .notNegotiated => true
  | _ => false

/-- Modelled from the spec (4.6 Track/Output Manager) and the
`flowcombiner` field (qtdemux.h line 80): combine the per-output downstream
results of all active outputs: any fatal result escalates to the session;
not-linked results only when every output is not-linked; otherwise the
session keeps going. -/
def flowCombine (rets : List GstFlowReturn) : GstFlowReturn :=
  match rets.find? flowIsFatal with
  | some r => r
  | none =>
      if rets ≠ [] ∧ rets.all (fun r => r == .notLinked) then .notLinked
      else .ok

/-- `GST_QTDEMUX_MAX_STREAMS` (qtdemux.h line 49): capacity of the fixed
`streams` array of one demuxer instance. -/
def GST_QTDEMUX_MAX_STREAMS : Nat := 32

/-- Modelled from the spec / qtdemux.h lines 74-75 (`streams` array and
`n_streams`): operations on the stream slots: exposing one more track, or
resetting the instance. -/
inductive StreamOp where
  | addTrack (id : Nat)
  | reset
  deriving Repr, DecidableEq

/-- Modelled from the spec / header: applying one operation to the occupied
stream slots; the fixed array refuses an addition once all
`GST_QTDEMUX_MAX_STREAMS` slots are in use. -/
def applyStreamOp (streams : List Nat) : StreamOp → List Nat
  | .addTrack i =>
      if streams.length < GST_QTDEMUX_MAX_STREAMS then streams ++ [i]
      else streams
  | .reset => []

/-- The stream slots after a sequence of operations on a fresh instance. -/
def runStreamOps (ops : List StreamOp) : List Nat :=
  ops.foldl applyStreamOp []

/-- End decode time of a static index: where the fragment decode-time
cursor of a track starts. -/
def trackEndTime (idx : List QtSample) : Nat :=
  (idx.map (fun s => s.decodeTime + s.duration)).foldl max 0

/-- Modelled from the spec (4.4): the phases of the Demux State Machine
(the `state` field of `GstQTDemux`, qtdemux.h line 97). -/
inductive DemuxPhase where
  | acquiringHeader
  | ready
  | streaming
  | seeking
  | trickPlay
  | stopped
  deriving Repr, DecidableEq

/-- Per-track playback state of the state machine: the resolved index, the
playback cursor (next sample to emit), the positions emitted since the last
flush (segment start), and the fragment decode-time cursor. -/
structure TrackPlay where
  samples : List QtSample
  pos : Nat
  emitted : List Nat
  fragCursor : Nat
  deriving Repr, DecidableEq, Inhabited

/-- Modelled from the spec (4.4): the Demux State Machine state: phase,
per-track playback state, pending seek target. -/
structure DemuxMachine where
  phase : DemuxPhase
  tracks : List TrackPlay
  pendingSeek : Option Int
  deriving Repr, DecidableEq

/-- The initial machine: accumulating header bytes, no tracks yet. -/
def demuxInit : DemuxMachine :=
  { phase := .acquiringHeader, tracks := [], pendingSeek := none }

/-- First sync-sample position strictly after `pos`, or the index length
when none remains (end of track). -/
def nextSyncAfter (samples : List QtSample) (pos : Nat) : Nat :=
  ((List.range samples.length).find?
      (fun j => decide (pos < j) && (samples.getD j default).sync)).getD
    samples.length

/-- Emit the sample at the playback cursor and advance by one. -/
def emitTrack (t : TrackPlay) : TrackPlay :=
  { t with emitted := t.emitted ++ [t.pos], pos := t.pos + 1 }

/-- Trick-play emission: emit the sync sample at the cursor and skip ahead
to the next sync position. -/
def emitTrackTrick (t : TrackPlay) : TrackPlay :=
  { t with emitted := t.emitted ++ [t.pos], pos := nextSyncAfter t.samples t.pos }

/-- Extend one track's index with a fragment via the Fragment Extender,
leaving playback state untouched. -/
def applyFragToTrack (t : TrackPlay) (f : TrackFragment) : TrackPlay :=
  { t with
    samples := (appendFragment { index := t.samples, cursor := t.fragCursor } f).1.index
    fragCursor := (appendFragment { index := t.samples, cursor := t.fragCursor } f).1.cursor }

/-- Completing a seek repositions the playback cursor via the Seek/Index
Planner and flushes the emission record (a new segment begins); track
identity, index and fragment cursor are preserved. -/
def seekTrack (t : TrackPlay) (tgt : Int) : TrackPlay :=
  { t with pos := seekFindSample t.samples tgt, emitted := [] }

/-- Fresh playback state for a freshly built track index. -/
def buildTrackPlay (idx : List QtSample) : TrackPlay :=
  { samples := idx, pos := 0, emitted := [], fragCursor := trackEndTime idx }

/-- Modelled from the spec (4.4 Demux State Machine of the missing
`qtdemux.c`): the transition relation.  Header completion builds the
tracks; streaming emits the sample under a track's cursor; trick play
emits only sync samples, skipping to the next sync position; fragment
acquisition extends a track through the Fragment Extender; a seek passes
through the SEEKING phase and completes by repositioning every track and
flushing its emission record; stop is terminal. -/
inductive DemuxStep : DemuxMachine → DemuxMachine → Prop where
  | headerDone (m : DemuxMachine) (ts : List SampleTables)
      (hp : m.phase = .acquiringHeader) (ht : m.tracks = []) :
      DemuxStep m
        { phase := .ready, tracks := (demuxBuildTracks ts).map buildTrackPlay,
          pendingSeek := none }
  | startStream (m : DemuxMachine) (hp : m.phase = .ready) :
      DemuxStep m { m with phase := .streaming }
  | emitNext (m : DemuxMachine) (i : Nat) (hi : i < m.tracks.length)
      (hp : m.phase = .streaming)
      (hpos : (m.tracks.getD i default).pos <
        (m.tracks.getD i default).samples.length) :
      DemuxStep m
        { m with tracks := m.tracks.set i (emitTrack (m.tracks.getD i default)) }
  | emitTrick (m : DemuxMachine) (i : Nat) (hi : i < m.tracks.length)
      (hp : m.phase = .trickPlay)
      (hpos : (m.tracks.getD i default).pos <
        (m.tracks.getD i default).samples.length)
      (hsync : ((m.tracks.getD i default).samples.getD
          (m.tracks.getD i default).pos default).sync = true) :
      DemuxStep m
        { m with
          tracks := m.tracks.set i (emitTrackTrick (m.tracks.getD i default)) }
  | appendFrag (m : DemuxMachine) (i : Nat) (hi : i < m.tracks.length)
      (f : TrackFragment) (hp : m.phase = .streaming) :
      DemuxStep m
        { m with
          tracks := m.tracks.set i
            (applyFragToTrack (m.tracks.getD i default) f) }
  | beginSeek (m : DemuxMachine) (tgt : Int)
      (hp : m.phase = .streaming ∨ m.phase = .trickPlay) :
      DemuxStep m { m with phase := .seeking, pendingSeek := some tgt }
  | completeSeek (m : DemuxMachine) (tgt : Int) (hp : m.phase = .seeking)
      (hs : m.pendingSeek = some tgt) :
      DemuxStep m
        { phase := .streaming, tracks := m.tracks.map (fun t => seekTrack t tgt),
          pendingSeek := none }
  | enterTrick (m : DemuxMachine) (hp : m.phase = .streaming) :
      DemuxStep m { m with phase := .trickPlay }
  | exitTrick (m : DemuxMachine) (hp : m.phase = .trickPlay) :
      DemuxStep m { m with phase := .streaming }
  | stop (m : DemuxMachine) : DemuxStep m { m with phase := .stopped }

/-- States reachable from the initial machine. -/
inductive DemuxReachable : DemuxMachine → Prop where
  | init : DemuxReachable demuxInit
  | step (s s' : DemuxMachine) :
      DemuxReachable s → DemuxStep s s' → DemuxReachable s'

/-- Per-track emission invariant: emitted positions are strictly increasing
and all lie before the playback cursor. -/
def TrackInv (t : TrackPlay) : Prop :=
  t.emitted.Pairwise (· < ·) ∧ ∀ e ∈ t.emitted, e < t.pos

/-- The machine invariant: every track satisfies the emission invariant. -/
def MachineInv (m : DemuxMachine) : Prop := ∀ t ∈ m.tracks, TrackInv t

/-- Machine holding the tracks of `exTable`, ready to stream. -/
def exReadyMachine : DemuxMachine :=
  { phase := .ready, tracks := (demuxBuildTracks [exTable]).map buildTrackPlay,
    pendingSeek := none }

/-- The same machine after the start-of-streaming transition. -/
def exStreamingMachine : DemuxMachine :=
  { exReadyMachine with phase := .streaming }

/-- The same machine after emitting track 0's first sample. -/
def exEmittedMachine : DemuxMachine :=
  { exStreamingMachine with
    tracks := exStreamingMachine.tracks.set 0
      (emitTrack (exStreamingMachine.tracks.getD 0 default)) }

theorem expandRun_length (n d t : Nat) : (expandRun n d t).length = n := by
  simp [expandRun]

theorem expandDeltas_length (stts : List (Nat × Nat)) (t : Nat) :
    (expandDeltas stts t).length = sttsTotalCount stts := by
  induction stts generalizing t with
  | nil => simp [expandDeltas, sttsTotalCount]
  | cons p rest ih =>
      cases p with
      | mk n d => simp [expandDeltas, sttsTotalCount, expandRun_length, ih]

theorem expandDeltas_le (stts : List (Nat × Nat)) (t : Nat) :
    ∀ x ∈ expandDeltas stts t, t ≤ x := by
  induction stts generalizing t with
  | nil => simp [expandDeltas]
  | cons p rest ih =>
      cases p with
      | mk n d =>
        intro x hx
        rw [expandDeltas, List.mem_append] at hx
        rcases hx with hx | hx
        · simp [expandRun] at hx
          obtain ⟨i, _, rfl⟩ := hx
          exact Nat.le_add_right t (i * d)
        · exact le_trans (Nat.le_add_right t (n * d)) (ih (t + n * d) x hx)

theorem expandRun_pairwise (n d t : Nat) :
    List.Pairwise (· ≤ ·) (expandRun n d t) := by
  unfold expandRun
  refine List.Pairwise.map _ ?_ (List.pairwise_lt_range n)
  intro a b hab
  exact Nat.add_le_add_left (Nat.mul_le_mul_right d (Nat.le_of_lt hab)) t

theorem expandRun_le_end (n d t : Nat) :
    ∀ x ∈ expandRun n d t, x ≤ t + n * d := by
  intro x hx
  simp [expandRun] at hx
  obtain ⟨i, hi, rfl⟩ := hx
  exact Nat.add_le_add_left (Nat.mul_le_mul_right d (Nat.le_of_lt hi)) t

theorem expandDeltas_pairwise (stts : List (Nat × Nat)) (t : Nat) :
    List.Pairwise (· ≤ ·) (expandDeltas stts t) := by
  induction stts generalizing t with
  | nil => simp [expandDeltas]
  | cons p rest ih =>
      cases p with
      | mk n d =>
        rw [expandDeltas]
        refine List.pairwise_append.mpr ⟨expandRun_pairwise n d t, ih _, ?_⟩
        intro a ha b hb
        exact le_trans (expandRun_le_end n d t a ha)
          (expandDeltas_le rest (t + n * d) b hb)

theorem map_getD_range (l : List Nat) :
    (List.range l.length).map (fun k => l.getD k 0) = l := by
  apply List.ext_getElem
  · simp
  · intro i h1 h2
    simp only [List.getElem_map, List.getElem_range]
    exact l.getD_eq_getElem 0 h2

theorem buildSamples_decodeTimes (t : SampleTables)
    (hc : sizeCount t.sizes = sttsTotalCount t.timeToSample) :
    (buildSamples t).map QtSample.decodeTime = expandDeltas t.timeToSample 0 := by
  unfold buildSamples
  rw [List.map_map]
  have hlen : sizeCount t.sizes = (expandDeltas t.timeToSample 0).length := by
    rw [expandDeltas_length, hc]
  rw [hlen]
  exact map_getD_range (expandDeltas t.timeToSample 0)

/-- Claim C2: for every well-formed static sample table subtree accepted by
the Sample Table Builder, the produced per-track sample index has
non-decreasing decode times, and its number of entries equals the minimum
consistent sample count implied by the sample-size table and the
decode-time table. -/
theorem buildSampleIndex_monotone_count (t : SampleTables) (idx : List QtSample)
    (h : buildSampleIndex t = some idx) :
    List.Pairwise (· ≤ ·) (idx.map QtSample.decodeTime) ∧
    idx.length = min (sizeCount t.sizes) (sttsTotalCount t.timeToSample) := by
  unfold buildSampleIndex at h
  split at h
  case isFalse => exact absurd h (by simp)
  case isTrue hc =>
    injection h with h
    subst h
    constructor
    · rw [buildSamples_decodeTimes t hc]
      exact expandDeltas_pairwise t.timeToSample 0
    · simp [buildSamples, hc]

theorem buildSampleIndex_monotone_count_witness :
    buildSampleIndex exTable =
      some [{ byteOffset := 64, byteSize := 100, decodeTime := 0, ptsDelta := 0,
              duration := 10, sync := true },
            { byteOffset := 164, byteSize := 200, decodeTime := 10, ptsDelta := 0,
              duration := 10, sync := true }] ∧
    (List.Pairwise (· ≤ ·)
        (((buildSampleIndex exTable).getD []).map QtSample.decodeTime) ∧
      ((buildSampleIndex exTable).getD []).length =
        min (sizeCount exTable.sizes) (sttsTotalCount exTable.timeToSample)) :=
  ⟨by decide, buildSampleIndex_monotone_count exTable _ (by decide)⟩

/-- Claim C7: a track whose sample-size table and decode-time table imply
different sample counts fails to build with an error contained to that
track; building the session's tracks continues on the remaining tracks
unchanged. -/
theorem inconsistent_track_contained (pre post : List SampleTables)
    (b : SampleTables)
    (h : sizeCount b.sizes ≠ sttsTotalCount b.timeToSample) :
    buildSampleIndex b = none ∧
    demuxBuildTracks (pre ++ b :: post) =
      demuxBuildTracks pre ++ demuxBuildTracks post := by
  have hb : buildSampleIndex b = none := by
    unfold buildSampleIndex
    simp [h]
  refine ⟨hb, ?_⟩
  unfold demuxBuildTracks
  rw [List.filterMap_append, List.filterMap_cons, hb]

theorem inconsistent_track_contained_witness :
    buildSampleIndex badTable = none ∧
    demuxBuildTracks ([exTable] ++ badTable :: [exTable]) =
      demuxBuildTracks [exTable] ++ demuxBuildTracks [exTable] :=
  inconsistent_track_contained [exTable] [exTable] badTable (by decide)

theorem parseBoxHeader_short (bytes : List Nat) (h : bytes.length < 8) :
    parseBoxHeader bytes = none := by
  unfold parseBoxHeader
  rw [if_neg (by omega)]

/-- Claim C4: a box whose declared size exceeds the bytes available is a
fatal parse error in pull mode; in push mode it is need-more-data when the
declared size is at or below the hard sanity ceiling, and a fatal error
when it exceeds the ceiling. -/
theorem box_truncation_policy (bytes : List Nat) (ty size hdrLen : Nat)
    (hp : parseBoxHeader bytes = some (ty, size, hdrLen))
    (hgt : bytes.length < size) :
    readBox .pull bytes = .fatalError ∧
    (size ≤ boxSanityCeiling → readBox .push bytes = .needMoreData) ∧
    (boxSanityCeiling < size → readBox .push bytes = .fatalError) := by
  unfold readBox
  rw [hp]
  have hns : ¬ size ≤ bytes.length := Nat.not_le.mpr hgt
  refine ⟨by simp [hns], ?_, ?_⟩
  · intro hle
    simp [hns, hle]
  · intro hgt2
    simp [hns, Nat.not_le.mpr hgt2]

theorem box_truncation_policy_witness :
    readBox .pull exTruncBytes = .fatalError ∧
    readBox .push exTruncBytes = .needMoreData ∧
    readBox .push exHugeBytes = .fatalError :=
  ⟨(box_truncation_policy exTruncBytes 1718909296 100 8 (by decide) (by decide)).1,
   (box_truncation_policy exTruncBytes 1718909296 100 8 (by decide) (by decide)).2.1
     (by decide),
   (box_truncation_policy exHugeBytes 1718909296 4294967295 8 (by decide)
       (by decide)).2.2 (by decide)⟩

theorem pushChunks_eq_flatten (chunks : List (List Nat)) (acc : List Nat) :
    chunks.foldl adapterPush acc = acc ++ chunks.flatten := by
  induction chunks generalizing acc with
  | nil => simp
  | cons c rest ih => simp [adapterPush, ih]

/-- Claim C6: push-mode parsing is chunking-invariant: delivering the input
in any sequence of chunks accumulates exactly the bytes of a single-piece
delivery, so the parse result is identical; an incomplete prefix of a split
(fewer than the 8 header bytes) reports need-more-data, never an error. -/
theorem push_chunking_invariant (chunks : List (List Nat)) :
    readBox .push (pushChunks chunks) = readBox .push chunks.flatten ∧
    (∀ c1 c2 : List Nat, c1 ++ c2 = chunks.flatten → c1.length < 8 →
      readBox .push c1 = .needMoreData) := by
  constructor
  · rw [show pushChunks chunks = chunks.flatten from by
      simpa [pushChunks, adapterEmpty] using pushChunks_eq_flatten chunks []]
  · intro c1 c2 _ hlt
    simp [readBox, parseBoxHeader_short c1 hlt]

theorem push_chunking_invariant_witness :
    (readBox .push (pushChunks [exChunk1, exChunk2]) =
        readBox .push ([exChunk1, exChunk2] : List (List Nat)).flatten ∧
      readBox .push exChunk1 = .needMoreData) ∧
    readBox .push (pushChunks [exChunk1, exChunk2]) = .header 1718909296 16 8 ∧
    exChunk1 ++ exChunk2 = exBoxBytes :=
  ⟨⟨(push_chunking_invariant [exChunk1, exChunk2]).1,
    (push_chunking_invariant [exChunk1, exChunk2]).2 exChunk1 exChunk2 (by decide)
      (by decide)⟩,
   by decide, by decide⟩

theorem lastSyncIdx_none (l : List QtSample) (tgt : Int)
    (h : lastSyncIdx l tgt = none) :
    ∀ s ∈ l, ¬(s.sync = true ∧ ptime s ≤ tgt) := by
  induction l with
  | nil => simp
  | cons a rest ih =>
      intro s hs
      rw [lastSyncIdx] at h
      cases hrest : lastSyncIdx rest tgt with
      | some j => rw [hrest] at h; exact absurd h (by simp)
      | none =>
          rw [hrest] at h
          rcases List.mem_cons.mp hs with rfl | hmem
          · intro hc
            rw [if_pos hc] at h
            exact absurd h (by simp)
          · exact ih hrest s hmem

theorem lastSyncIdx_spec (l : List QtSample) (tgt : Int) (j : Nat)
    (h : lastSyncIdx l tgt = some j) :
    ∃ hj : j < l.length,
      (l.get ⟨j, hj⟩).sync = true ∧ ptime (l.get ⟨j, hj⟩) ≤ tgt ∧
      ∀ k (hk : k < l.length), j < k →
        ¬((l.get ⟨k, hk⟩).sync = true ∧ ptime (l.get ⟨k, hk⟩) ≤ tgt) := by
  induction l generalizing j with
  | nil => rw [lastSyncIdx] at h; exact absurd h (by simp)
  | cons a rest ih =>
      rw [lastSyncIdx] at h
      cases hrest : lastSyncIdx rest tgt with
      | some j' =>
          rw [hrest] at h
          have hj : j = j' + 1 := by
            have := Option.some.inj h
            omega
          subst hj
          obtain ⟨hj', hsync, hpt, hlast⟩ := ih j' hrest
          refine ⟨Nat.succ_lt_succ hj', ?_, ?_, ?_⟩
          · simpa using hsync
          · simpa using hpt
          · intro k hk hgt
            cases k with
            | zero => omega
            | succ k' =>
                have hk' : k' < rest.length := Nat.lt_of_succ_lt_succ hk
                have := hlast k' hk' (Nat.lt_of_succ_lt_succ hgt)
                simpa using this
      | none =>
          rw [hrest] at h
          by_cases hc : a.sync = true ∧ ptime a ≤ tgt
          · rw [if_pos hc] at h
            have hj : j = 0 := by
              have := Option.some.inj h
              omega
            subst hj
            refine ⟨Nat.succ_pos _, by simpa using hc.1, by simpa using hc.2, ?_⟩
            intro k hk _
            cases k with
            | zero => omega
            | succ k' =>
                have hk' : k' < rest.length := Nat.lt_of_succ_lt_succ hk
                have hmem : rest.get ⟨k', hk'⟩ ∈ rest := List.get_mem rest k' hk'
                have := lastSyncIdx_none rest tgt hrest _ hmem
                simpa using this
          · rw [if_neg hc] at h
            exact absurd h (by simp)

/-- Claim C1: for a track whose sample index is resolved, a seek to target
presentation time T resumes at the last sync sample at or before T (never
after); reading forward from there yields first that sync sample, then the
remaining samples in decode order, with nothing skipped or duplicated
relative to a full linear scan from zero. -/
theorem seek_resume_last_sync (samples : List QtSample) (tgt : Int) (j : Nat)
    (h : lastSyncIdx samples tgt = some j) :
    seekFindSample samples tgt = j ∧
    ∃ hj : j < samples.length,
      (samples.get ⟨j, hj⟩).sync = true ∧
      ptime (samples.get ⟨j, hj⟩) ≤ tgt ∧
      (∀ k (hk : k < samples.length), j < k →
        ¬((samples.get ⟨k, hk⟩).sync = true ∧
          ptime (samples.get ⟨k, hk⟩) ≤ tgt)) ∧
      emitFrom samples j = samples.get ⟨j, hj⟩ :: samples.drop (j + 1) ∧
      samples.take j ++ emitFrom samples j = samples := by
  obtain ⟨hj, h1, h2, h3⟩ := lastSyncIdx_spec samples tgt j h
  refine ⟨by simp [seekFindSample, h], hj, h1, h2, h3, ?_, ?_⟩
  · unfold emitFrom
    rw [List.drop_eq_getElem_cons hj]
    simp
  · unfold emitFrom
    exact List.take_append_drop j samples

theorem seek_resume_last_sync_witness :
    scenBSamples.map QtSample.sync =
      [true, false, false, false, true, false, false, false, true] ∧
    (scenBSamples.map QtSample.decodeTime).getD 6 0 = 6 ∧
    seekFindSample scenBSamples 6 = 4 :=
  ⟨by decide, by decide, (seek_resume_last_sync scenBSamples 6 4 (by decide)).1⟩

theorem lastSyncIdx_getLast (l : List QtSample) (tgt : Int) (h : l ≠ [])
    (hsync : (l.getLast h).sync = true) (hpt : ptime (l.getLast h) ≤ tgt) :
    lastSyncIdx l tgt = some (l.length - 1) := by
  induction l with
  | nil => exact absurd rfl h
  | cons a rest ih =>
      by_cases hr : rest = []
      · subst hr
        rw [lastSyncIdx]
        simp only [lastSyncIdx]
        rw [if_pos ⟨by simpa using hsync, by simpa using hpt⟩]
        rfl
      · rw [lastSyncIdx]
        have hlast : (a :: rest).getLast h = rest.getLast hr :=
          List.getLast_cons hr
        rw [ih hr (by rw [← hlast]; exact hsync) (by rw [← hlast]; exact hpt)]
        show some (rest.length - 1 + 1) = some ((a :: rest).length - 1)
        have hpos : 1 ≤ rest.length := List.length_pos.mpr hr
        simp only [List.length_cons, Option.some.injEq]
        omega

/-- Claim C8: a seek with a target beyond the known samples succeeds by
clamping to the last known (sync) sample rather than erroring, and a seek
on a fragmented container before any sample index has been resolved records
`fragmented_seek_pending` and defers rather than failing; the handler never
returns an error. -/
theorem seek_clamp_and_defer (d : SeekState) (tgt : Int) :
    (handleSeek d tgt).2 ≠ .error ∧
    (∀ h : d.samples ≠ [], (d.samples.getLast h).sync = true →
      ptime (d.samples.getLast h) ≤ tgt →
      (handleSeek d tgt).2 = .positioned (d.samples.length - 1)) ∧
    (d.fragmented = true → d.samples = [] →
      (handleSeek d tgt).1.fragmented_seek_pending = true ∧
      (handleSeek d tgt).2 = .deferred) := by
  refine ⟨?_, ?_, ?_⟩
  · unfold handleSeek
    split
    · simp
    · simp
  · intro hne hsync hpt
    unfold handleSeek
    rw [if_neg (by intro hc; exact hne hc.2)]
    simp [seekFindSample, lastSyncIdx_getLast d.samples tgt hne hsync hpt]
  · intro hf he
    unfold handleSeek
    rw [if_pos ⟨hf, he⟩]
    exact ⟨rfl, rfl⟩

theorem seek_clamp_and_defer_witness :
    (handleSeek exSeekState 1000).2 = .positioned 8 ∧
    (handleSeek exFragSeekState 1000).1.fragmented_seek_pending = true ∧
    (handleSeek exFragSeekState 1000).2 = .deferred :=
  ⟨(seek_clamp_and_defer exSeekState 1000).2.1 (by decide) (by decide) (by decide),
   ((seek_clamp_and_defer exFragSeekState 1000).2.2 rfl rfl).1,
   ((seek_clamp_and_defer exFragSeekState 1000).2.2 rfl rfl).2⟩

theorem appendFragment_cursor_le (s : TrackFragState) (f : TrackFragment) :
    s.cursor ≤ ((appendFragment s f).1).cursor := by
  unfold appendFragment
  split
  · exact Nat.le_refl _
  · rename_i hge
    have : s.cursor ≤ f.baseDecodeTime.getD s.cursor := Nat.le_of_not_lt hge
    exact le_trans this (Nat.le_add_right _ _)

/-- Claim C3: the track's decode-time cursor after processing fragment N+1
is at or above the cursor after fragment N; a fragment whose run would
violate the monotonic-append invariant is dropped as a recoverable error
confined to that fragment - index and cursor unchanged - and the append
step never produces a fatal outcome. -/
theorem fragment_append_monotone (s0 : TrackFragState)
    (fs : List TrackFragment) (n : Nat) :
    (processFragments s0 (fs.take n)).cursor ≤
      (processFragments s0 (fs.take (n + 1))).cursor ∧
    (∀ f : TrackFragment, ∀ b : Nat, f.baseDecodeTime = some b →
      b < (processFragments s0 (fs.take n)).cursor →
      appendFragment (processFragments s0 (fs.take n)) f =
        (processFragments s0 (fs.take n), .droppedRecoverable)) ∧
    (∀ f : TrackFragment,
      (appendFragment (processFragments s0 (fs.take n)) f).2 ≠ .fatal) := by
  refine ⟨?_, ?_, ?_⟩
  · rw [List.take_succ]
    unfold processFragments
    rw [List.foldl_append]
    cases hg : fs[n]? with
    | none => exact Nat.le_refl _
    | some f => exact appendFragment_cursor_le _ f
  · intro f b hb hlt
    unfold appendFragment
    rw [hb]
    rw [if_pos (by simpa using hlt)]
  · intro f
    unfold appendFragment
    split
    · simp
    · simp

theorem fragment_append_monotone_witness :
    (processFragments exFragState ([exFrag1].take 1)).cursor ≤
      (processFragments exFragState ([exFrag1].take 2)).cursor ∧
    appendFragment (processFragments exFragState ([exFrag1].take 1)) exFragBad =
      (processFragments exFragState ([exFrag1].take 1), .droppedRecoverable) ∧
    (processFragments exFragState ([exFrag1].take 1)).cursor = 10 :=
  ⟨(fragment_append_monotone exFragState [exFrag1] 1).1,
   (fragment_append_monotone exFragState [exFrag1] 1).2.1 exFragBad 3 rfl
     (by decide),
   by decide⟩

/-- Claim C9: the combined downstream result of all active outputs is fatal
as soon as any single output reports a fatal result, while a non-fatal
not-linked result on one output does not stop emission when another output
still accepts data. -/
theorem flow_combiner_policy (rets : List GstFlowReturn) :
    ((∃ r ∈ rets, flowIsFatal r = true) →
      flowIsFatal (flowCombine rets) = true) ∧
    (GstFlowReturn.notLinked ∈ rets → GstFlowReturn.ok ∈ rets →
      (∀ r ∈ rets, flowIsFatal r = false) → flowCombine rets = .ok) := by
  constructor
  · rintro ⟨r, hr, hf⟩
    unfold flowCombine
    cases hfind : rets.find? flowIsFatal with
    | some r' => exact List.find?_some hfind
    | none =>
        exact absurd hf (by simpa using List.find?_eq_none.mp hfind r hr)
  · intro _ hok hnofatal
    unfold flowCombine
    rw [List.find?_eq_none.mpr (by intro x hx; simp [hnofatal x hx])]
    rw [if_neg ?_]
    rintro ⟨_, hall⟩
    have := List.all_eq_true.mp hall _ hok
    simp at this

theorem flow_combiner_policy_witness :
    flowCombine [GstFlowReturn.ok, GstFlowReturn.notLinked] = .ok ∧
    flowIsFatal (flowCombine [GstFlowReturn.ok, GstFlowReturn.error]) = true :=
  ⟨(flow_combiner_policy [GstFlowReturn.ok, GstFlowReturn.notLinked]).2
      (by decide) (by decide) (by decide),
   (flow_combiner_policy [GstFlowReturn.ok, GstFlowReturn.error]).1
      ⟨GstFlowReturn.error, by decide, rfl⟩⟩

/-- Claim C10: the demuxer stores its tracks in a fixed array of
`GST_QTDEMUX_MAX_STREAMS` (32) slots, so after any sequence of operations
the occupied slot count satisfies 0 <= n_streams <= 32. -/
theorem streams_capacity_invariant (ops : List StreamOp) :
    0 ≤ (runStreamOps ops).length ∧
    (runStreamOps ops).length ≤ GST_QTDEMUX_MAX_STREAMS ∧
    GST_QTDEMUX_MAX_STREAMS = 32 := by
  refine ⟨Nat.zero_le _, ?_, rfl⟩
  have key : ∀ (l : List StreamOp) (s : List Nat),
      s.length ≤ GST_QTDEMUX_MAX_STREAMS →
      (l.foldl applyStreamOp s).length ≤ GST_QTDEMUX_MAX_STREAMS := by
    intro l
    induction l with
    | nil => intro s hs; simpa using hs
    | cons op rest ih =>
        intro s hs
        apply ih
        cases op with
        | addTrack i =>
            simp only [applyStreamOp]
            by_cases hlt : s.length < GST_QTDEMUX_MAX_STREAMS
            · rw [if_pos hlt]
              simp only [List.length_append, List.length_singleton]
              omega
            · rw [if_neg hlt]
              exact hs
        | reset => simp [applyStreamOp]
  exact key ops [] (by simp)

theorem nextSyncAfter_gt (samples : List QtSample) (pos : Nat)
    (h : pos < samples.length) : pos < nextSyncAfter samples pos := by
  unfold nextSyncAfter
  cases hf : (List.range samples.length).find?
      (fun j => decide (pos < j) && (samples.getD j default).sync) with
  | none => simpa using h
  | some j =>
      have hp := List.find?_some hf
      simp only [Bool.and_eq_true, decide_eq_true_eq] at hp
      simpa using hp.1

theorem trackInv_emit (t : TrackPlay) (h : TrackInv t) :
    TrackInv (emitTrack t) := by
  obtain ⟨hpw, hlt⟩ := h
  constructor
  · show (t.emitted ++ [t.pos]).Pairwise (· < ·)
    refine List.pairwise_append.mpr ⟨hpw, List.pairwise_singleton _ _, ?_⟩
    intro a ha b hb
    rw [List.mem_singleton] at hb
    subst hb
    exact hlt a ha
  · show ∀ e ∈ t.emitted ++ [t.pos], e < t.pos + 1
    intro e he
    rcases List.mem_append.mp he with he | he
    · exact Nat.lt_succ_of_lt (hlt e he)
    · rw [List.mem_singleton] at he
      subst he
      exact Nat.lt_succ_self _

theorem trackInv_emitTrick (t : TrackPlay) (h : TrackInv t)
    (hpos : t.pos < t.samples.length) : TrackInv (emitTrackTrick t) := by
  obtain ⟨hpw, hlt⟩ := h
  have hnext : t.pos < nextSyncAfter t.samples t.pos :=
    nextSyncAfter_gt t.samples t.pos hpos
  constructor
  · show (t.emitted ++ [t.pos]).Pairwise (· < ·)
    refine List.pairwise_append.mpr ⟨hpw, List.pairwise_singleton _ _, ?_⟩
    intro a ha b hb
    rw [List.mem_singleton] at hb
    subst hb
    exact hlt a ha
  · show ∀ e ∈ t.emitted ++ [t.pos], e < nextSyncAfter t.samples t.pos
    intro e he
    rcases List.mem_append.mp he with he | he
    · exact lt_trans (hlt e he) hnext
    · rw [List.mem_singleton] at he
      subst he
      exact hnext

theorem trackInv_applyFrag (t : TrackPlay) (f : TrackFragment)
    (h : TrackInv t) : TrackInv (applyFragToTrack t f) := h

theorem trackInv_seek (t : TrackPlay) (tgt : Int) :
    TrackInv (seekTrack t tgt) := by
  constructor
  · exact List.Pairwise.nil
  · intro e he
    exact absurd he (List.not_mem_nil e)

theorem trackInv_build (idx : List QtSample) : TrackInv (buildTrackPlay idx) := by
  constructor
  · exact List.Pairwise.nil
  · intro e he
    exact absurd he (List.not_mem_nil e)

theorem getD_mem_of_lt (l : List TrackPlay) (i : Nat) (h : i < l.length) :
    l.getD i default ∈ l := by
  rw [List.getD_eq_getElem _ _ h]
  exact List.getElem_mem h

theorem getD_set_self (l : List TrackPlay) (i : Nat) (a : TrackPlay)
    (h : i < l.length) : (l.set i a).getD i default = a := by
  have h' : i < (l.set i a).length := by simpa using h
  rw [List.getD_eq_getElem _ _ h']
  simp [List.getElem_set]

theorem getD_set_other (l : List TrackPlay) (i j : Nat) (a : TrackPlay)
    (hne : i ≠ j) (h : j < l.length) :
    (l.set i a).getD j default = l.getD j default := by
  have h' : j < (l.set i a).length := by simpa using h
  rw [List.getD_eq_getElem _ _ h', List.getD_eq_getElem _ _ h]
  simp [List.getElem_set, hne]

theorem getD_map_seek (l : List TrackPlay) (tgt : Int) (j : Nat)
    (h : j < l.length) :
    (l.map (fun t => seekTrack t tgt)).getD j default =
      seekTrack (l.getD j default) tgt := by
  have h' : j < (l.map (fun t => seekTrack t tgt)).length := by simpa using h
  rw [List.getD_eq_getElem _ _ h', List.getD_eq_getElem _ _ h]
  simp

theorem machineInv_step (s s' : DemuxMachine) (h : MachineInv s)
    (hstep : DemuxStep s s') : MachineInv s' := by
  cases hstep with
  | headerDone ts hp ht =>
      intro t htm
      simp only [List.mem_map] at htm
      obtain ⟨idx, _, rfl⟩ := htm
      exact trackInv_build idx
  | startStream hp => exact h
  | emitNext i hi hp hpos =>
      intro t htm
      rcases List.mem_or_eq_of_mem_set htm with hmem | rfl
      · exact h t hmem
      · exact trackInv_emit _ (h _ (getD_mem_of_lt s.tracks i hi))
  | emitTrick i hi hp hpos hsync =>
      intro t htm
      rcases List.mem_or_eq_of_mem_set htm with hmem | rfl
      · exact h t hmem
      · exact trackInv_emitTrick _ (h _ (getD_mem_of_lt s.tracks i hi)) hpos
  | appendFrag i hi f hp =>
      intro t htm
      rcases List.mem_or_eq_of_mem_set htm with hmem | rfl
      · exact h t hmem
      · exact trackInv_applyFrag _ f (h _ (getD_mem_of_lt s.tracks i hi))
  | beginSeek tgt hp => exact h
  | completeSeek tgt hp hs =>
      intro t htm
      simp only [List.mem_map] at htm
      obtain ⟨t0, _, rfl⟩ := htm
      exact trackInv_seek t0 tgt
  | enterTrick hp => exact h
  | exitTrick hp => exact h
  | stop => exact h

theorem machineInv_reachable (s : DemuxMachine) (h : DemuxReachable s) :
    MachineInv s := by
  induction h with
  | init =>
      intro t ht
      exact absurd ht (List.not_mem_nil t)
  | step s s' _ hstep ih => exact machineInv_step s s' ih hstep

theorem step_fragCursor_mono (s s' : DemuxMachine) (hstep : DemuxStep s s') :
    ∀ i, i < s.tracks.length → i < s'.tracks.length →
      (s.tracks.getD i default).fragCursor ≤
        (s'.tracks.getD i default).fragCursor := by
  cases hstep with
  | headerDone ts hp ht =>
      intro i hi _
      rw [ht] at hi
      exact absurd hi (by simp)
  | startStream hp => intro i _ _; exact Nat.le_refl _
  | emitNext j hj hp hpos =>
      intro i hi hi'
      dsimp only
      by_cases hij : j = i
      · subst hij
        rw [getD_set_self s.tracks j _ hj]
        exact Nat.le_refl _
      · rw [getD_set_other s.tracks j i _ hij hi]
  | emitTrick j hj hp hpos hsync =>
      intro i hi hi'
      dsimp only
      by_cases hij : j = i
      · subst hij
        rw [getD_set_self s.tracks j _ hj]
        exact Nat.le_refl _
      · rw [getD_set_other s.tracks j i _ hij hi]
  | appendFrag j hj f hp =>
      intro i hi hi'
      dsimp only
      by_cases hij : j = i
      · subst hij
        rw [getD_set_self s.tracks j _ hj]
        exact appendFragment_cursor_le
          { index := (s.tracks.getD j default).samples,
            cursor := (s.tracks.getD j default).fragCursor } f
      · rw [getD_set_other s.tracks j i _ hij hi]
  | beginSeek tgt hp => intro i _ _; exact Nat.le_refl _
  | completeSeek tgt hp hs =>
      intro i hi hi'
      dsimp only
      rw [getD_map_seek s.tracks tgt i hi]
      exact Nat.le_refl _
  | enterTrick hp => intro i _ _; exact Nat.le_refl _
  | exitTrick hp => intro i _ _; exact Nat.le_refl _
  | stop => intro i _ _; exact Nat.le_refl _

/-- Claim C5: across every transition of the Demux State Machine taken from
a reachable state - including transitions through SEEKING, TRICK_PLAY and
fragment acquisition - no track emits a sample position twice within an
output segment (the emitted positions remain duplicate-free; completing a
seek flushes the record as a new segment begins) and no track's decode-time
cursor ever regresses. -/
theorem demux_no_dup_no_regress (s s' : DemuxMachine)
    (hr : DemuxReachable s) (hstep : DemuxStep s s') :
    (∀ t ∈ s'.tracks, t.emitted.Nodup) ∧
    (∀ i, i < s.tracks.length → i < s'.tracks.length →
      (s.tracks.getD i default).fragCursor ≤
        (s'.tracks.getD i default).fragCursor) := by
  have hinv : MachineInv s' :=
    machineInv_step s s' (machineInv_reachable s hr) hstep
  refine ⟨?_, step_fragCursor_mono s s' hstep⟩
  intro t ht
  exact List.Pairwise.imp (fun hab => Nat.ne_of_lt hab) (hinv t ht).1

theorem demux_no_dup_no_regress_witness :
    (∀ t ∈ exEmittedMachine.tracks, t.emitted.Nodup) ∧
    (∀ i, i < exStreamingMachine.tracks.length →
      i < exEmittedMachine.tracks.length →
      (exStreamingMachine.tracks.getD i default).fragCursor ≤
        (exEmittedMachine.tracks.getD i default).fragCursor) :=
  demux_no_dup_no_regress exStreamingMachine exEmittedMachine
    (DemuxReachable.step exReadyMachine exStreamingMachine
      (DemuxReachable.step demuxInit exReadyMachine DemuxReachable.init
        (DemuxStep.headerDone demuxInit [exTable] rfl rfl))
      (DemuxStep.startStream exReadyMachine rfl))
    (DemuxStep.emitNext exStreamingMachine 0 (by decide) rfl (by decide))

end QtDemux
